import Mathlib

/-!
Verification of the cut-search engine in `players/g2/best_combination.py` and
`players/g2/helpers.py`.

Conventions of the embedding:
* Python floats are modelled as rationals (`ℚ`); `round(x, 2)` is modelled by
  `round2` (ties are rounded up; no statement below depends on tie behaviour).
* A 2-D point is a pair of rationals; a cut is a pair of points.
* Randomness (`random.sample`, `random.random`) is modelled by explicit oracle
  streams; properties are quantified over all oracles, with validity and
  fairness hypotheses mirroring what uniform sampling guarantees.
* External collaborators (shapely's `split`, the assignment strategies from
  `players/g2/assigns.py`, miniball) are modelled as parameters, exactly as the
  spec treats them (interfaces only).
-/

attribute [local semireducible] Rat.add Rat.sub Rat.mul Rat.inv Rat.ofScientific

/-- A 2-D point, as the Python code's coordinate pairs. -/
abbrev Pt : Type := ℚ × ℚ

/-- A cut: a ("from", "to") pair of points, as in `best_combination.py`. -/
abbrev CutP : Type := Pt × Pt

/-- Model of Python's `round(q, 2)`: round to two decimal places.
(Python rounds ties to even; this model rounds ties up.  No claim below
evaluates `round2` at a tie.) -/
def round2 (q : ℚ) : ℚ := ((⌊100 * q + 1 / 2⌋ : ℤ) : ℚ) / 100

/-- `get_cuts_spread` (best_combination.py lines 14-30): bounds for the
cut-count search.  `min_cuts = count // 3`, `max_cuts = count - 1` raised to
`min_cuts + 1` when necessary. -/
def getCutsSpread (requests : List ℚ) : ℤ × ℤ :=
  let count : ℕ := requests.length
  let max_cuts : ℤ := (count : ℤ) - 1
  let min_cuts : ℤ := ((count / 3 : ℕ) : ℤ)
  let max_cuts : ℤ := max max_cuts (min_cuts + 1)
  (min_cuts, max_cuts)

/-- `cuts_to_polygons` (best_combination.py lines 95-116).  The polygon-split
primitive (`divide_polygon`, which wraps shapely's `split`) is an external
collaborator and is passed as the parameter `divide`.  A polygon is modelled
as its vertex list. -/
def cutsToPolygons (divide : List Pt → Pt → Pt → List (List Pt))
    (cuts : List CutP) (cake_len cake_width : ℚ) : List (List Pt) :=
  cuts.foldl
    (fun polygons cut =>
      polygons.foldr (fun polygon acc => divide polygon cut.1 cut.2 ++ acc) [])
    [[(0, 0), (0, cake_len), (cake_width, cake_len), (cake_width, 0)]]

/-- `nearest_edge_x` (helpers.py lines 60-71): the nearer of the `x = 0` and
`x = cake_width` edges, with the distance to it. -/
def nearestEdgeX (pos : Pt) (cake_width : ℚ) : ℚ × ℚ :=
  if cake_width - pos.1 < pos.1 then (cake_width, cake_width - pos.1) else (0, pos.1)

/-- `nearest_edge_y` (helpers.py lines 74-85). -/
def nearestEdgeY (pos : Pt) (cake_len : ℚ) : ℚ × ℚ :=
  if cake_len - pos.2 < pos.2 then (cake_len, cake_len - pos.2) else (0, pos.2)

/-- `bounce` (helpers.py lines 88-94): a value 0.01 away from the margin. -/
def bounce (margin : ℚ) : ℚ :=
  if margin = 0 then 1 / 100 else round2 (margin - 1 / 100)

/-- `sneak` (helpers.py lines 10-57): boundary-hugging waypoints from
`start_pos` to `end_pos`. -/
def sneak (start_pos end_pos : Pt) (cake_width cake_len : ℚ) : List Pt :=
  let nx := nearestEdgeX start_pos cake_width
  let ny := nearestEdgeY start_pos cake_len
  let ex := nearestEdgeX end_pos cake_width
  let ey := nearestEdgeY end_pos cake_len
  let moves : List Pt :=
    if ny.2 = 0 ∧ (1 / 10 < nx.2 ∨ nx.1 ≠ ex.1) then
      let bounce_y := bounce ny.1
      if 0 < ey.2 ∨ ny.1 ≠ ey.1 then
        let bounce_x := bounce ex.1
        if ey.2 = 0 then
          [(ex.1, bounce_y), (bounce_x, ny.1), (bounce_x, ey.1), (ex.1, bounce ey.1)]
        else
          [(ex.1, bounce_y), (bounce_x, ny.1)]
      else
        [(ex.1, bounce_y)]
    else if nx.2 = 0 ∧ (1 / 10 < ny.2 ∨ ny.1 ≠ ey.1) then
      let bounce_x := bounce nx.1
      if 0 < ex.2 ∨ nx.1 ≠ ex.1 then
        let bounce_y := bounce ey.1
        if ex.2 = 0 then
          [(bounce_x, ey.1), (nx.1, bounce_y), (ex.1, bounce_y), (bounce ex.1, ey.1)]
        else
          [(bounce_x, ey.1), (nx.1, bounce_y)]
      else
        [(bounce_x, ey.1)]
    else
      []
  moves ++ [end_pos]

/-- A knife move, as emitted by `cuts_to_moves`: either the initial placement
(`constants.INIT`) or a travel/cut step (`constants.CUT`). -/
inductive Move : Type where
  | place : Pt → Move
  | cut : Pt → Move
deriving DecidableEq

/-- Tail of `cuts_to_moves`: the moves emitted for the remaining cuts once the
knife rests at `last_point`. -/
def cutsToMovesAux (cake_width cake_len : ℚ) : List CutP → Pt → List Move
  | [], _ => []
  | (fp, tp) :: rest, last_point =>
      ((sneak last_point fp cake_width cake_len).map Move.cut)
        ++ Move.cut tp :: cutsToMovesAux cake_width cake_len rest tp

/-- `cuts_to_moves` (best_combination.py lines 341-365).  The first cut's
"from" point becomes the initial placement; later cuts are preceded by the
`sneak` waypoints.  (`requests` is accepted and ignored, as in the source.) -/
def cutsToMoves (cuts : List CutP) (requests : List ℚ)
    (cake_len cake_width : ℚ) : List Move :=
  match cuts with
  | [] => []
  | (fp, tp) :: rest =>
      Move.place fp :: Move.cut tp :: cutsToMovesAux cake_width cake_len rest tp

/-- The `LEFT` point list of `generate_cuts` (best_combination.py line 41):
`jumps` evenly spaced points on the edge `x = 0`, y-coordinates rounded to two
decimals. -/
def leftPts (cake_len cake_width : ℚ) (jumps : ℕ) : List Pt :=
  (List.range jumps).map fun i => ((0 : ℚ), round2 (cake_len * i / ((jumps - 1 : ℕ) : ℚ)))

/-- The `RIGHT` point list (line 42): points on the edge `x = cake_width`. -/
def rightPts (cake_len cake_width : ℚ) (jumps : ℕ) : List Pt :=
  (List.range jumps).map fun i => (cake_width, round2 (cake_len * i / ((jumps - 1 : ℕ) : ℚ)))

/-- The `UP` point list (line 43): points on the edge `y = 0`. -/
def upPts (cake_len cake_width : ℚ) (jumps : ℕ) : List Pt :=
  (List.range jumps).map fun i => (round2 (cake_width * i / ((jumps - 1 : ℕ) : ℚ)), (0 : ℚ))

/-- The `DOWN` point list (line 44): points on the edge `y = cake_len`. -/
def downPts (cake_len cake_width : ℚ) (jumps : ℕ) : List Pt :=
  (List.range jumps).map fun i => (round2 (cake_width * i / ((jumps - 1 : ℕ) : ℚ)), cake_len)

/-- `points = set(LEFT + RIGHT + UP + DOWN)` (line 46), as a duplicate-free
list. -/
def samplePts (cake_len cake_width : ℚ) (jumps : ℕ) : List Pt :=
  (leftPts cake_len cake_width jumps ++ rightPts cake_len cake_width jumps
    ++ upPts cake_len cake_width jumps ++ downPts cake_len cake_width jumps).dedup

/-- The candidate "to" points for a given "from" point (lines 53-60): the
sampled points minus the edge list the "from" point was found on, following
the source's LEFT / RIGHT / UP / else-DOWN chain. -/
def toCandidates (cake_len cake_width : ℚ) (jumps : ℕ) (from_point : Pt) : List Pt :=
  let pts := samplePts cake_len cake_width jumps
  if from_point ∈ leftPts cake_len cake_width jumps then
    pts.filter (· ∉ leftPts cake_len cake_width jumps)
  else if from_point ∈ rightPts cake_len cake_width jumps then
    pts.filter (· ∉ rightPts cake_len cake_width jumps)
  else if from_point ∈ upPts cake_len cake_width jumps then
    pts.filter (· ∉ upPts cake_len cake_width jumps)
  else
    pts.filter (· ∉ downPts cake_len cake_width jumps)

/-- All ("from", "to") pairs one iteration of `generate_cuts`'s loop can draw:
"from" is any sampled point, "to" any of its candidates. -/
def allDraws (cake_len cake_width : ℚ) (jumps : ℕ) : List CutP :=
  (samplePts cake_len cake_width jumps).bind fun f =>
    (toCandidates cake_len cake_width jumps f).map fun t => (f, t)

/-- Endpoint swap of a cut (the `(to_point, from_point)` orientation). -/
def swapCut (c : CutP) : CutP := (c.2, c.1)

/-- Lexicographic comparison of points, used only to pick a canonical
orientation of a cut for order-independent comparison. -/
def ptLe (a b : Pt) : Prop := a.1 < b.1 ∨ (a.1 = b.1 ∧ a.2 ≤ b.2)

instance : DecidablePred fun ab : Pt × Pt => ptLe ab.1 ab.2 := by
  intro ab; unfold ptLe; infer_instance

instance (a b : Pt) : Decidable (ptLe a b) := by unfold ptLe; infer_instance

/-- Canonical orientation of a cut: the endpoint-order-independent
representative. -/
def normPair (c : CutP) : CutP := if ptLe c.1 c.2 then c else swapCut c

/-- One pass of `generate_cuts`'s rejection loop body (lines 62-66): the drawn
pair is added unless it or its swap is already selected. -/
def addDraw (selected : List CutP) (d : CutP) : List CutP :=
  if d ∈ selected ∨ swapCut d ∈ selected then selected else d :: selected

/-- The `while len(selected) < cuts` loop of `generate_cuts` (lines 50-66),
with the random draws supplied by `oracle` and an explicit fuel bound:
`none` means the loop is still running after `fuel` iterations. -/
def genLoop (cuts : ℕ) (oracle : ℕ → CutP) : ℕ → ℕ → List CutP → Option (List CutP)
  | 0, _, selected => if cuts ≤ selected.length then some selected else none
  | fuel + 1, t, selected =>
      if cuts ≤ selected.length then some selected
      else genLoop cuts oracle fuel (t + 1) (addDraw selected (oracle t))

/-- `generate_cuts` (best_combination.py lines 33-68), as a fuel-bounded run
of the rejection loop from the empty selection.  The oracle models
`random.sample`; a valid oracle only produces pairs in `allDraws`. -/
def generateCutsRun (cake_len cake_width : ℚ) (jumps cuts : ℕ)
    (oracle : ℕ → CutP) (fuel : ℕ) : Option (List CutP) :=
  genLoop cuts oracle fuel 0 []

/-- The number of distinct cuts (under endpoint-order-independent comparison)
that `generate_cuts`'s point set can realize. -/
def maxDistinct (cake_len cake_width : ℚ) (jumps : ℕ) : ℕ :=
  ((allDraws cake_len cake_width jumps).map normPair).dedup.length

/-- Both endpoints of a cut lie on one and the same edge of the domain. -/
def sameEdge (cake_len cake_width : ℚ) (c : CutP) : Prop :=
  (c.1.1 = 0 ∧ c.2.1 = 0) ∨ (c.1.1 = cake_width ∧ c.2.1 = cake_width)
    ∨ (c.1.2 = 0 ∧ c.2.2 = 0) ∨ (c.1.2 = cake_len ∧ c.2.2 = cake_len)

instance (cake_len cake_width : ℚ) (c : CutP) :
    Decidable (sameEdge cake_len cake_width c) := by unfold sameEdge; infer_instance

/-- A corner of the rectangular domain. -/
def isCorner (cake_len cake_width : ℚ) (p : Pt) : Prop :=
  (p.1 = 0 ∨ p.1 = cake_width) ∧ (p.2 = 0 ∨ p.2 = cake_len)

instance (cake_len cake_width : ℚ) (p : Pt) :
    Decidable (isCorner cake_len cake_width p) := by unfold isCorner; infer_instance

/-- A cake piece, abstracted to the two attributes the penalty computation
consults: its area and the radius of its minimal enclosing circle (the value
`miniball.miniball` would report for its vertices).  Both primitives are
external collaborators. -/
structure Piece where
  area : ℚ
  encloseRadius : ℚ

/-- `can_cake_fit_in_plate` (helpers.py lines 136-156): a piece of area below
0.25 passes outright; otherwise its minimal enclosing circle must fit the
plate radius. -/
def canCakeFitInPlate (cake_piece : Piece) (radius : ℚ) : Bool :=
  if cake_piece.area < 1 / 4 then true
  else decide (cake_piece.encloseRadius ≤ radius)

/-- The per-request penalty term of `__calculate_penalty` (best_combination.py
lines 80-91): 100 for an unassigned request or a plate-infeasible piece,
otherwise the percentage area error when it exceeds the tolerance, else 0. -/
def requestPenalty (pieces : List Piece) (tolerance : ℚ) (assignment : ℤ) (request : ℚ) : ℚ :=
  if assignment = -1 ∨ ¬ canCakeFitInPlate (pieces.getD assignment.toNat ⟨0, 0⟩) (25 / 2) then
    100
  else
    let penalty_percentage :=
      100 * |(pieces.getD assignment.toNat ⟨0, 0⟩).area - request| / request
    if tolerance < penalty_percentage then penalty_percentage else 0

/-- The accumulation loop of `__calculate_penalty`, walking the assignment
list with the running request index (Python's `enumerate`). -/
def calcPenaltyLoop (pieces : List Piece) (requests : List ℚ) (tolerance : ℚ) :
    List ℤ → ℕ → ℚ
  | [], _ => 0
  | a :: rest, i =>
      requestPenalty pieces tolerance a (requests.getD i 0)
        + calcPenaltyLoop pieces requests tolerance rest (i + 1)

/-- `__calculate_penalty` (best_combination.py lines 71-92), with the
assignment list (the output of the pluggable matching strategy) passed in
directly: the strategy itself lives in `players/g2/assigns.py` and is an
external collaborator. -/
def calculatePenalty (assignments : List ℤ) (requests : List ℚ)
    (pieces : List Piece) (tolerance : ℚ) : ℚ :=
  calcPenaltyLoop pieces requests tolerance assignments 0

/-- The spec's description of the same total (spec section 4.3 / claim C5),
written out from the spec's words: the sum over the requests of 100 if the
request is unassigned or its piece fails the plate-fit check, otherwise the
percentage area error if it strictly exceeds the tolerance, otherwise 0. -/
def penaltyFormula (assignments : List ℤ) (requests : List ℚ)
    (pieces : List Piece) (tolerance : ℚ) : ℚ :=
  ((assignments.zip requests).map fun ar =>
    if ar.1 = -1 ∨ ¬ canCakeFitInPlate (pieces.getD ar.1.toNat ⟨0, 0⟩) (25 / 2) then
      (100 : ℚ)
    else if tolerance < 100 * |(pieces.getD ar.1.toNat ⟨0, 0⟩).area - ar.2| / ar.2 then
      100 * |(pieces.getD ar.1.toNat ⟨0, 0⟩).area - ar.2| / ar.2
    else 0).sum

/-- State tracked across `best_combo`'s cut-count search loop
(best_combination.py lines 143-170): the length of `best_cuts`, `min_penalty`
(`none` = the initial infinity) and `best_cut_no`. -/
structure SearchAcc where
  bestLen : ℕ
  minPen : Option ℚ
  bestNo : ℕ
deriving DecidableEq

/-- `curr < min_penalty` with `min_penalty` possibly infinite. -/
def ltPen (curr : ℚ) : Option ℚ → Bool
  | none => true
  | some q => decide (curr < q)

/-- One iteration of the cut-count search body (lines 150-170), with the inner
200-trial loop abstracted by `trial`, which yields the `best_curr_penalty`
found for a given cut count (a finite value: the inner loop always assigns).
A contender at cut count `c` has `c` cuts, so `best_cuts` is non-empty exactly
when a cut count `> 0` has been recorded. -/
def searchStep (trial : ℕ → ℚ) (acc : SearchAcc) (c : ℕ) : SearchAcc :=
  let p := trial c
  if acc.bestLen = 0 ∨ ltPen p acc.minPen then ⟨c, some p, c⟩ else acc

/-- The `for cuts in range(min_cuts, max_cuts + 1)` loop (lines 146-170) with
its early break (line 148); returns the final state together with the value
the loop variable `cuts` holds when the loop is left - the value the spam
pass's `generate_cuts(cuts, ...)` call (line 177) then uses. -/
def searchLoop (trial : ℕ → ℚ) : List ℕ → SearchAcc → ℕ → SearchAcc × ℕ
  | [], acc, last => (acc, last)
  | c :: rest, acc, _ =>
      if acc.bestNo + 5 < c then (acc, c)
      else searchLoop trial rest (searchStep trial acc c) c

/-- The Python `range(lo, hi + 1)` as a list of naturals (both bounds are
non-negative whenever they come from `getCutsSpread`). -/
def cutRange (lo hi : ℤ) : List ℕ :=
  List.range' lo.toNat (hi.toNat + 1 - lo.toNat)

/-- The cut-count search phase of `best_combo` (lines 138-170): runs the
search loop over `range(min_cuts, max_cuts + 1)`.  The second component is the
cut count at which the spam pass (lines 176-185) subsequently draws all of its
2000 candidates - per line 177 this is the leftover loop variable `cuts`, not
the tracked `best_cut_no`. -/
def bestComboSearch (trial : ℕ → ℚ) (requests : List ℚ) : SearchAcc × ℕ :=
  let s := getCutsSpread requests
  searchLoop trial (cutRange s.1 s.2) ⟨0, none, s.1.toNat⟩ s.1.toNat

/-- A genetic-candidate entry: the pair of 2-D offset vectors for one cut's
two endpoints (`[[dx_l, dy_l], [dx_r, dy_r]]` in the source's genome lists). -/
abbrev OffEntry : Type := Pt × Pt

/-- A candidate ("genome"): one offset pair per cut of the base cut set. -/
abbrev Cand : Type := List OffEntry

/-- Round both offset vectors of a genome entry to two decimals
(best_combination.py line 252). -/
def round2Entry (g : OffEntry) : OffEntry :=
  ((round2 g.1.1, round2 g.1.2), (round2 g.2.1, round2 g.2.2))

/-- The mutation step of `create_offspring` (best_combination.py lines
207-250) for one genome entry.  `l` and `r` are the base cut's endpoints,
`mu` the random draw.  The branch for a right endpoint on the top or bottom
border reproduces the source literally, including its comparison of
`r[1] + genome[1][0] + MUTATION_DIST` against `cake_len` (line 246). -/
def mutateEntry (l r : Pt) (g : OffEntry) (mu cake_len cake_width : ℚ) : OffEntry :=
  if mu < 2 / 5 then
    if mu < 1 / 5 then
      if l.1 = 0 ∨ l.1 = cake_width then
        if mu < 1 / 10 ∧ l.2 + g.1.2 + 1 / 10 < cake_len then
          ((g.1.1, g.1.2 + 1 / 10), g.2)
        else if 0 < l.2 + g.1.2 - 1 / 10 then
          ((g.1.1, g.1.2 - 1 / 10), g.2)
        else g
      else if l.2 = 0 ∨ l.2 = cake_len then
        if mu < 1 / 10 ∧ l.1 + g.1.1 + 1 / 10 < cake_width then
          ((g.1.1 + 1 / 10, g.1.2), g.2)
        else if 0 < l.1 + g.1.1 - 1 / 10 then
          ((g.1.1 - 1 / 10, g.1.2), g.2)
        else g
      else g
    else
      if r.1 = 0 ∨ r.1 = cake_width then
        if mu - 1 / 5 < 1 / 10 ∧ r.2 + g.2.2 + 1 / 10 < cake_len then
          (g.1, (g.2.1, g.2.2 + 1 / 10))
        else if 0 < r.2 + g.2.2 - 1 / 10 then
          (g.1, (g.2.1, g.2.2 - 1 / 10))
        else g
      else if r.2 = 0 ∨ r.2 = cake_len then
        if mu - 1 / 5 < 1 / 10 ∧ r.2 + g.2.1 + 1 / 10 < cake_len then
          (g.1, (g.2.1 + 1 / 10, g.2.2))
        else if 0 < r.1 + g.2.1 - 1 / 10 then
          (g.1, (g.2.1 - 1 / 10, g.2.2))
        else g
      else g
  else g

/-- `create_offspring` (best_combination.py lines 195-255).  `oracle idx`
supplies the two `random.random()` draws (`toss`, `mut`) of iteration `idx`;
the genome is inherited from `c1` or `c2` by the toss, then possibly mutated,
then rounded. -/
def createOffspring (cuts : List CutP) (c1 c2 : Cand) (oracle : ℕ → ℚ × ℚ)
    (cake_len cake_width : ℚ) : Cand :=
  (List.range c1.length).map fun idx =>
    let toss := (oracle idx).1
    let mu := (oracle idx).2
    let genome := if toss < 1 / 2 then c1.getD idx ((0, 0), (0, 0)) else c2.getD idx ((0, 0), (0, 0))
    let base := cuts.getD idx ((0, 0), (0, 0))
    round2Entry (mutateEntry base.1 base.2 genome mu cake_len cake_width)

/-- `combined_cuts` (best_combination.py lines 258-271): the base cuts with a
candidate's offsets added coordinatewise, each coordinate rounded to two
decimals. -/
def combinedCuts (cuts : List CutP) (candidate : Cand) : List CutP :=
  (List.range cuts.length).map fun idx =>
    let c := cuts.getD idx ((0, 0), (0, 0))
    let o := candidate.getD idx ((0, 0), (0, 0))
    ((round2 (c.1.1 + o.1.1), round2 (c.1.2 + o.1.2)),
     (round2 (c.2.1 + o.2.1), round2 (c.2.2 + o.2.2)))

/-- The all-zero-offsets candidate the `shake` population is seeded with
(best_combination.py line 297). -/
def zeroCand (n : ℕ) : Cand := List.replicate n ((0, 0), (0, 0))

/-- `sort_candidates` (best_combination.py lines 274-279): sort the candidate
list ascending by the penalty of the combined cuts.  `key c` is the penalty of
`combined_cuts(cuts, c)`; Python's stable sort is modelled by a stable
insertion sort. -/
def sortCandidates (key : Cand → ℚ) (candidates : List Cand) : List Cand :=
  candidates.insertionSort fun a b => key a ≤ key b

/-- One population round of `shake` (best_combination.py lines 300-307 and
313-320): refill the population with offspring (`news`; their contents depend
on random crossover and mutation, so they are oracle-supplied), sort by
penalty and drop the worst `CUTOFF = 6` candidates. -/
def shakeEpoch (key : Cand → ℚ) (pop news : List Cand) : List Cand :=
  let sorted := sortCandidates key (pop ++ news)
  sorted.take (sorted.length - 6)

/-- The population of `shake` after the initial round and any number of
while-loop rounds (the loop's stopping rule only determines how many rounds
run, so the rounds are given as the list of their offspring batches). -/
def shakePopulation (key : Cand → ℚ) (n : ℕ) (initNews : List Cand)
    (epochsNews : List (List Cand)) : List Cand :=
  epochsNews.foldl (fun pop news => shakeEpoch key pop news)
    (shakeEpoch key [zeroCand n, zeroCand n] initNews)

/-- The cut set `shake` returns (best_combination.py line 338):
`combined_cuts(cuts, candidates[0])` for the final population.  `p` is the
penalty function of a cut set, `penalty(..., requests, cake_len, cake_width,
tolerance)`, kept abstract because its assignment strategy is an external
collaborator; `key` below recomputes it through `combined_cuts` exactly as
`sort_candidates` does. -/
def shakeKey (p : List CutP → ℚ) (cuts : List CutP) : Cand → ℚ :=
  fun c => p (combinedCuts cuts c)

/-- The cut set `shake` returns, continued: `combined_cuts(cuts,
candidates[0])` for the final population. -/
def shakeResult (p : List CutP → ℚ) (cuts : List CutP) (initNews : List Cand)
    (epochsNews : List (List Cand)) : List CutP :=
  combinedCuts cuts
    ((shakePopulation (shakeKey p cuts) cuts.length initNews epochsNews).headD
      (zeroCand cuts.length))

/-- C6: `get_cuts_spread` returns `min_cuts = len(requests) // 3` and
`max_cuts = len(requests) - 1`, except that `max_cuts` is raised (to
`min_cuts + 1`) exactly when it would otherwise be `≤ min_cuts`; the returned
pair always satisfies `max_cuts > min_cuts`. -/
theorem get_cuts_spread_spec (requests : List ℚ) :
    getCutsSpread requests
      = (((requests.length / 3 : ℕ) : ℤ),
         if (requests.length : ℤ) - 1 ≤ ((requests.length / 3 : ℕ) : ℤ)
         then ((requests.length / 3 : ℕ) : ℤ) + 1
         else (requests.length : ℤ) - 1)
      ∧ (getCutsSpread requests).1 < (getCutsSpread requests).2 := by
  unfold getCutsSpread
  constructor
  · simp only [Prod.mk.injEq, true_and]
    omega
  · simp only
    omega

/-- C10: `cuts_to_moves` on the empty cut list emits no moves at all: no
initial placement and no cut moves. -/
theorem cuts_to_moves_empty (requests : List ℚ) (cake_len cake_width : ℚ) :
    cutsToMoves [] requests cake_len cake_width = [] := rfl

/-- C8: partitioning a positive-extent domain with the empty cut list yields
exactly one piece: the full starting rectangle, whichever split primitive is
supplied. -/
theorem cuts_to_polygons_empty (divide : List Pt → Pt → Pt → List (List Pt))
    (cake_len cake_width : ℚ) (hl : 0 < cake_len) (hw : 0 < cake_width) :
    cutsToPolygons divide [] cake_len cake_width
      = [[(0, 0), (0, cake_len), (cake_width, cake_len), (cake_width, 0)]] := rfl

/-- Witness for `cuts_to_polygons_empty` at a concrete domain and split
primitive. -/
theorem cuts_to_polygons_empty_witness :
    (0 : ℚ) < 2 ∧ (0 : ℚ) < 3
      ∧ cutsToPolygons (fun poly _ _ => [poly]) [] 2 3
          = [[(0, 0), (0, 2), (3, 2), (3, 0)]] :=
  ⟨by norm_num, by norm_num,
    cuts_to_polygons_empty (fun poly _ _ => [poly]) 2 3 (by norm_num) (by norm_num)⟩

/-- C1 (code bug): in `best_combo`, for requests `[1,1,1,1,1,1]` and an inner
loop whose best penalty is 5 at 2 cuts and 10 at every other cut count, the
search records `best_cut_no = 2`, yet the loop variable `cuts` that the spam
pass's `generate_cuts(cuts, cake_len, cake_width, 12)` call (line 177) reads
is left at 5 - the spam pass samples 5-cut sets, not sets at the tracked best
cut count. -/
theorem best_combo_spam_uses_stale_cut_count :
    (bestComboSearch (fun c => if c = 2 then (5 : ℚ) else 10) [1, 1, 1, 1, 1, 1]).1.bestNo = 2
      ∧ (bestComboSearch (fun c => if c = 2 then (5 : ℚ) else 10) [1, 1, 1, 1, 1, 1]).2 = 5
      ∧ (2 : ℕ) ≠ 5 := by
  refine ⟨?_, ?_, by decide⟩ <;> rfl

/-- C3 (code bug): on a cake of width 5 and length 100, with the base cut set
`[((0,0), (4.95,0))]` (both endpoints on the boundary, the right endpoint on
the top edge), zero-offset parents, and random draws `toss = 0.3`,
`mu = 0.25`, `create_offspring`'s buggy top/bottom-border branch for the right
endpoint (line 246: it tests `r[1] + genome[1][0] + MUTATION_DIST < cake_len`
instead of `r[0] + genome[1][0] + MUTATION_DIST < cake_width`) increases the
x-offset, and the combined cut's endpoint lands at x = 5.05, strictly outside
the domain width 5. -/
theorem create_offspring_escapes_width_bound :
    combinedCuts [((0, 0), (99 / 20, 0))]
        (createOffspring [((0, 0), (99 / 20, 0))] [((0, 0), (0, 0))] [((0, 0), (0, 0))]
          (fun _ => (3 / 10, 1 / 4)) 100 5)
      = [((0, 0), (101 / 20, 0))]
      ∧ ¬ ((101 : ℚ) / 20 ≤ 5) := by
  constructor
  · decide
  · norm_num

/-- C2 (counterexample): with a 10 by 10 cake and granularity 2 the corner
`(0,0)` sits in the LEFT edge list, so its candidate "to" points exclude only
LEFT - and `(10,0)` is a legal draw.  A run of `generate_cuts` asking for one
cut can therefore return the cut `((0,0), (10,0))`, whose two endpoints both
lie on the edge `y = 0`: a cut with both endpoints on the same domain edge
does appear. -/
theorem generate_cuts_same_edge_cut_cex :
    (((0, 0), (10, 0)) : CutP) ∈ allDraws 10 10 2
      ∧ generateCutsRun 10 10 2 1 (fun _ => (((0 : ℚ), (0 : ℚ)), ((10 : ℚ), (0 : ℚ)))) 1
          = some [((0, 0), (10, 0))]
      ∧ sameEdge 10 10 ((0, 0), (10, 0)) := by
  refine ⟨by decide, by decide, ?_⟩
  right; right; left
  exact ⟨rfl, rfl⟩

/-- C7 (counterexample): the previous cut's end `(0, 25)` and the next cut's
start `(0, 75)` both lie on the left edge `x = 0` of a 100 by 100 cake, yet
`sneak` emits the intermediate bounce waypoint `(0.01, 100)` before the end
position - it does not return only the end position. -/
theorem sneak_same_edge_waypoint_cex :
    ((0, 25) : Pt).1 = 0 ∧ ((0, 75) : Pt).1 = 0
      ∧ sneak (0, 25) (0, 75) 100 100 = [(1 / 100, 100), (0, 75)]
      ∧ sneak (0, 25) (0, 75) 100 100 ≠ [(0, 75)] := by
  refine ⟨rfl, rfl, by decide, by decide⟩

/-- The index-carrying loop of `__calculate_penalty` computes the sum of the
per-request terms over the assignments zipped with the not-yet-visited
requests. -/
theorem calcPenaltyLoop_eq_sum_zip (pieces : List Piece) (requests : List ℚ)
    (tolerance : ℚ) (assigns : List ℤ) :
    ∀ i : ℕ, i + assigns.length ≤ requests.length →
      calcPenaltyLoop pieces requests tolerance assigns i
        = ((assigns.zip (requests.drop i)).map
            fun ar => requestPenalty pieces tolerance ar.1 ar.2).sum := by
  induction assigns with
  | nil => intro i _; simp [calcPenaltyLoop]
  | cons a rest ih =>
      intro i h
      have hi : i < requests.length := by
        simp only [List.length_cons] at h; omega
      rw [calcPenaltyLoop, List.drop_eq_getElem_cons hi, List.zip_cons_cons,
        List.map_cons, List.sum_cons,
        ih (i + 1) (by simp only [List.length_cons] at h; omega),
        List.getD_eq_getElem requests 0 hi]

/-- C5: the penalty equals the sum over the requests of: 100 if the request
is unassigned (`-1`) or its assigned piece fails the plate-fit check;
otherwise the percentage area error `100 * |area - request| / request` when
it strictly exceeds the tolerance; otherwise 0.  Moreover a piece of area
below 0.25 passes the plate-fit check without its enclosing circle being
consulted, and otherwise the check is exactly `radius ≤ 12.5`. -/
theorem calculate_penalty_spec (assignments : List ℤ) (requests : List ℚ)
    (pieces : List Piece) (tolerance : ℚ)
    (hlen : assignments.length = requests.length) :
    calculatePenalty assignments requests pieces tolerance
        = penaltyFormula assignments requests pieces tolerance
      ∧ (∀ a r₁ r₂ : ℚ, a < 1 / 4 →
          canCakeFitInPlate ⟨a, r₁⟩ (25 / 2) = canCakeFitInPlate ⟨a, r₂⟩ (25 / 2))
      ∧ (∀ p : Piece, ¬ p.area < 1 / 4 →
          (canCakeFitInPlate p (25 / 2) = true ↔ p.encloseRadius ≤ 25 / 2)) := by
  refine ⟨?_, ?_, ?_⟩
  · rw [calculatePenalty, calcPenaltyLoop_eq_sum_zip pieces requests tolerance assignments 0
      (by omega), List.drop_zero, penaltyFormula]
    rfl
  · intro a r₁ r₂ ha
    have ha' : a < (4 : ℚ)⁻¹ := by rw [show ((4 : ℚ)⁻¹ = 1 / 4) from by norm_num]; exact ha
    simp [canCakeFitInPlate, ha']
  · intro p hp
    have hp' : ¬ p.area < (4 : ℚ)⁻¹ := by
      rw [show ((4 : ℚ)⁻¹ = 1 / 4) from by norm_num]; exact hp
    simp [canCakeFitInPlate, hp']

/-- Witness for `calculate_penalty_spec`: one unassigned request and one
assigned request against a single unit-area piece. -/
theorem calculate_penalty_spec_witness :
    ([(-1 : ℤ), 0].length = [(1 : ℚ), 2].length)
      ∧ (calculatePenalty [-1, 0] [1, 2] [⟨1, 1⟩] 0
            = penaltyFormula [-1, 0] [1, 2] [⟨1, 1⟩] 0
          ∧ (∀ a r₁ r₂ : ℚ, a < 1 / 4 →
              canCakeFitInPlate ⟨a, r₁⟩ (25 / 2) = canCakeFitInPlate ⟨a, r₂⟩ (25 / 2))
          ∧ (∀ p : Piece, ¬ p.area < 1 / 4 →
              (canCakeFitInPlate p (25 / 2) = true ↔ p.encloseRadius ≤ 25 / 2))) :=
  ⟨rfl, calculate_penalty_spec [-1, 0] [1, 2] [⟨1, 1⟩] 0 rfl⟩

/-- For a point on the left edge the nearest x-edge is `x = 0` at distance 0. -/
theorem nearestEdgeX_left (y cake_width : ℚ) (hw : 0 ≤ cake_width) :
    nearestEdgeX (0, y) cake_width = (0, 0) := by
  unfold nearestEdgeX
  rw [if_neg (by simp; linarith)]

/-- For a point on the right edge the nearest x-edge is `x = cake_width` at
distance 0. -/
theorem nearestEdgeX_right (y cake_width : ℚ) (hw : 0 < cake_width) :
    nearestEdgeX (cake_width, y) cake_width = (cake_width, 0) := by
  unfold nearestEdgeX
  rw [if_pos (by simp; linarith)]
  simp

/-- For a point on the top edge the nearest y-edge is `y = 0` at distance 0. -/
theorem nearestEdgeY_top (x cake_len : ℚ) (hl : 0 ≤ cake_len) :
    nearestEdgeY (x, 0) cake_len = (0, 0) := by
  unfold nearestEdgeY
  rw [if_neg (by simp; linarith)]

/-- For a point on the bottom edge the nearest y-edge is `y = cake_len` at
distance 0. -/
theorem nearestEdgeY_bottom (x cake_len : ℚ) (hl : 0 < cake_len) :
    nearestEdgeY (x, cake_len) cake_len = (cake_len, 0) := by
  unfold nearestEdgeY
  rw [if_pos (by simp; linarith)]
  simp

/-- C7 (amended): when the previous cut's end point and the next cut's start
point lie on the same domain edge, `sneak` never emits the multi-waypoint
corner ricochet: it returns either the end position alone or one single
intermediate bounce waypoint followed by the end position. -/
theorem sneak_same_edge_at_most_one_waypoint (s e : Pt) (cake_width cake_len : ℚ)
    (hw : 0 < cake_width) (hl : 0 < cake_len)
    (hsame : (s.1 = 0 ∧ e.1 = 0) ∨ (s.1 = cake_width ∧ e.1 = cake_width)
      ∨ (s.2 = 0 ∧ e.2 = 0) ∨ (s.2 = cake_len ∧ e.2 = cake_len)) :
    sneak s e cake_width cake_len = [e]
      ∨ ∃ p, sneak s e cake_width cake_len = [p, e] := by
  obtain ⟨s1, s2⟩ := s
  obtain ⟨e1, e2⟩ := e
  simp only at hsame
  rcases hsame with ⟨h1, h2⟩ | ⟨h1, h2⟩ | ⟨h1, h2⟩ | ⟨h1, h2⟩
  · -- both on the left edge x = 0
    subst s1; subst e1
    simp only [sneak, nearestEdgeX_left _ _ hw.le]
    split_ifs with h1' h2' h3' h4' h5' h6' <;>
      first
        | (exfalso; revert h1'; norm_num; done)
        | (exfalso; revert h2'; norm_num; done)
        | (exfalso; revert h3'; norm_num; done)
        | (exfalso; revert h4'; norm_num; done)
        | (exfalso; revert h5'; norm_num; done)
        | (exfalso; revert h6'; norm_num; done)
        | (left; rfl)
        | (right; exact ⟨_, rfl⟩)
  · -- both on the right edge x = cake_width
    subst s1; subst e1
    simp only [sneak, nearestEdgeX_right _ _ hw]
    split_ifs with h1' h2' h3' h4' h5' h6' <;>
      first
        | (exfalso; revert h1'; norm_num; done)
        | (exfalso; revert h2'; norm_num; done)
        | (exfalso; revert h3'; norm_num; done)
        | (exfalso; revert h4'; norm_num; done)
        | (exfalso; revert h5'; norm_num; done)
        | (exfalso; revert h6'; norm_num; done)
        | (left; rfl)
        | (right; exact ⟨_, rfl⟩)
  · -- both on the top edge y = 0
    subst s2; subst e2
    simp only [sneak, nearestEdgeY_top _ _ hl.le]
    split_ifs with h1' h2' h3' h4' h5' h6' <;>
      first
        | (exfalso; revert h1'; norm_num; done)
        | (exfalso; revert h2'; norm_num; done)
        | (exfalso; revert h3'; norm_num; done)
        | (exfalso; revert h4'; norm_num; done)
        | (exfalso; revert h5'; norm_num; done)
        | (exfalso; revert h6'; norm_num; done)
        | (left; rfl)
        | (right; exact ⟨_, rfl⟩)
  · -- both on the bottom edge y = cake_len
    subst s2; subst e2
    simp only [sneak, nearestEdgeY_bottom _ _ hl]
    split_ifs with h1' h2' h3' h4' h5' h6' <;>
      first
        | (exfalso; revert h1'; norm_num; done)
        | (exfalso; revert h2'; norm_num; done)
        | (exfalso; revert h3'; norm_num; done)
        | (exfalso; revert h4'; norm_num; done)
        | (exfalso; revert h5'; norm_num; done)
        | (exfalso; revert h6'; norm_num; done)
        | (left; rfl)
        | (right; exact ⟨_, rfl⟩)

/-- Witness for `sneak_same_edge_at_most_one_waypoint` at the counterexample
input: both points on the left edge of a 100 by 100 cake. -/
theorem sneak_same_edge_at_most_one_waypoint_witness :
    (0 : ℚ) < 100 ∧ (((0, 25) : Pt).1 = 0 ∧ ((0, 75) : Pt).1 = 0)
      ∧ (sneak (0, 25) (0, 75) 100 100 = [(0, 75)]
          ∨ ∃ p, sneak (0, 25) (0, 75) 100 100 = [p, (0, 75)]) :=
  ⟨by norm_num, ⟨rfl, rfl⟩,
    sneak_same_edge_at_most_one_waypoint (0, 25) (0, 75) 100 100 (by norm_num)
      (by norm_num) (Or.inl ⟨rfl, rfl⟩)⟩

/-- The head of the penalty-sorted candidate list has minimal key among the
original candidates (Python's `list.sort(key=...)` is ascending). -/
theorem sorted_head_min (key : Cand → ℚ) (l : List Cand) (x : Cand) (t : List Cand)
    (h : sortCandidates key l = x :: t) : ∀ c ∈ l, key x ≤ key c := by
  intro c hc
  haveI htot : IsTotal Cand (fun a b => key a ≤ key b) := ⟨fun a b => le_total _ _⟩
  haveI htr : IsTrans Cand (fun a b => key a ≤ key b) :=
    ⟨fun a b d hab hbd => le_trans hab hbd⟩
  have hs : List.Sorted (fun a b => key a ≤ key b) (sortCandidates key l) :=
    List.sorted_insertionSort _ l
  have hperm : List.Perm (sortCandidates key l) l := List.perm_insertionSort _ l
  have hc' : c ∈ x :: t := by rw [← h]; exact hperm.symm.subset hc
  rw [h] at hs
  rcases List.mem_cons.mp hc' with rfl | hct
  · exact le_refl _
  · exact List.rel_of_sorted_cons hs c hct

/-- One `shake` round on a population of total size 20 that contains a
candidate of key at most `pen` yields a 14-candidate population whose head
again has key at most `pen`. -/
theorem shakeEpoch_head (key : Cand → ℚ) (pen : ℚ) (pop news : List Cand)
    (hlen : (pop ++ news).length = 20)
    (hex : ∃ c ∈ pop ++ news, key c ≤ pen) :
    ∃ x t, shakeEpoch key pop news = x :: t ∧ key x ≤ pen
      ∧ (shakeEpoch key pop news).length = 14 := by
  obtain ⟨c, hc, hcle⟩ := hex
  have hperm := List.perm_insertionSort (fun a b : Cand => key a ≤ key b) (pop ++ news)
  have hslen : (sortCandidates key (pop ++ news)).length = 20 := by
    rw [sortCandidates, hperm.length_eq, hlen]
  obtain ⟨x, t, hxt⟩ : ∃ x t, sortCandidates key (pop ++ news) = x :: t := by
    cases hs : sortCandidates key (pop ++ news) with
    | nil => rw [hs] at hslen; simp at hslen
    | cons a b => exact ⟨a, b, rfl⟩
  have hmin := sorted_head_min key (pop ++ news) x t hxt
  have hepoch : shakeEpoch key pop news = x :: t.take 13 := by
    rw [shakeEpoch] at *
    rw [hxt] at hslen ⊢
    rw [hslen]
    rfl
  have htlen : t.length = 19 := by
    rw [hxt] at hslen
    simpa using hslen
  refine ⟨x, t.take 13, hepoch, le_trans (hmin c hc) hcle, ?_⟩
  rw [hepoch]
  simp [htlen]

/-- Iterating `shake` rounds from a 14-candidate population whose head has
key at most `pen` keeps that property, whatever offspring the randomness
produces. -/
theorem shakeFold_head (key : Cand → ℚ) (pen : ℚ) :
    ∀ (eps : List (List Cand)) (pop : List Cand),
      (∀ news ∈ eps, news.length = 6) →
      (∃ x t, pop = x :: t ∧ key x ≤ pen ∧ pop.length = 14) →
      ∃ x t, eps.foldl (fun pop news => shakeEpoch key pop news) pop = x :: t
        ∧ key x ≤ pen
        ∧ (eps.foldl (fun pop news => shakeEpoch key pop news) pop).length = 14 := by
  intro eps
  induction eps with
  | nil => intro pop _ h; simpa using h
  | cons news rest ih =>
      intro pop hlen hpop
      obtain ⟨x, t, hpe, hx, hl⟩ := hpop
      obtain ⟨x', t', he', hx', hl'⟩ :=
        shakeEpoch_head key pen pop news
          (by rw [List.length_append, hl, hlen news (by simp)])
          ⟨x, by simp [hpe], hx⟩
      rw [List.foldl_cons]
      exact ih (shakeEpoch key pop news) (fun n hn => hlen n (by simp [hn]))
        ⟨x', t', he', hx', hl'⟩

/-- Adding the all-zero candidate's offsets to a base cut set whose
coordinates are two-decimal values reproduces the base cut set. -/
theorem combinedCuts_zero (cuts : List CutP)
    (hfix : ∀ c ∈ cuts, round2 c.1.1 = c.1.1 ∧ round2 c.1.2 = c.1.2
        ∧ round2 c.2.1 = c.2.1 ∧ round2 c.2.2 = c.2.2) :
    combinedCuts cuts (zeroCand cuts.length) = cuts := by
  apply List.ext_getElem
  · simp [combinedCuts]
  · intro i h1 h2
    have hi : i < cuts.length := by simpa [combinedCuts] using h1
    simp only [combinedCuts, List.getElem_map, List.getElem_range]
    rw [List.getD_eq_getElem cuts (((0, 0), (0, 0)) : CutP) hi,
      List.getD_eq_getElem (zeroCand cuts.length) (((0, 0), (0, 0)) : CutP)
        (by simpa [zeroCand] using hi)]
    obtain ⟨hf1, hf2, hf3, hf4⟩ := hfix cuts[i] (List.getElem_mem hi)
    simp [zeroCand, hf1, hf2, hf3, hf4]

/-- C4: for every base cut set (two-decimal coordinates, per the data model),
every deterministic penalty function, an input penalty equal to the base's
penalty, and every outcome of the random offspring draws, the cut set `shake`
returns has penalty at most the input penalty: the zero-offset seeds tie the
initial population to the base penalty, each round keeps the 14 best
candidates, and the returned head can only improve. -/
theorem shake_penalty_nonincreasing (p : List CutP → ℚ) (cuts : List CutP) (pen : ℚ)
    (hfix : ∀ c ∈ cuts, round2 c.1.1 = c.1.1 ∧ round2 c.1.2 = c.1.2
        ∧ round2 c.2.1 = c.2.1 ∧ round2 c.2.2 = c.2.2)
    (hpen : pen = p cuts)
    (initNews : List Cand) (epochsNews : List (List Cand))
    (hinit : initNews.length = 18) (heach : ∀ news ∈ epochsNews, news.length = 6) :
    p (shakeResult p cuts initNews epochsNews) ≤ pen := by
  have hkey0 : shakeKey p cuts (zeroCand cuts.length) ≤ pen := by
    rw [shakeKey]
    simp only [combinedCuts_zero cuts hfix, hpen]
    exact le_refl _
  obtain ⟨x0, t0, he0, hx0, hl0⟩ :=
    shakeEpoch_head (shakeKey p cuts) pen
      [zeroCand cuts.length, zeroCand cuts.length] initNews
      (by simp [hinit]) ⟨zeroCand cuts.length, by simp, hkey0⟩
  obtain ⟨x, t, hxt, hx, _⟩ :=
    shakeFold_head (shakeKey p cuts) pen epochsNews _ heach ⟨x0, t0, he0, hx0, hl0⟩
  rw [shakeResult, shakePopulation, hxt]
  simpa [shakeKey] using hx

/-- Witness for `shake_penalty_nonincreasing`: a one-cut base set with integer
coordinates, the constant-zero penalty function, 18 zero offspring for the
initial fill and no while-loop rounds. -/
theorem shake_penalty_nonincreasing_witness :
    (∀ c ∈ [(((0, 0), (10, 5)) : CutP)],
        round2 c.1.1 = c.1.1 ∧ round2 c.1.2 = c.1.2
          ∧ round2 c.2.1 = c.2.1 ∧ round2 c.2.2 = c.2.2)
      ∧ (0 : ℚ) = (fun _ : List CutP => (0 : ℚ)) [((0, 0), (10, 5))]
      ∧ (List.replicate 18 (zeroCand 1)).length = 18
      ∧ (∀ news ∈ ([] : List (List Cand)), news.length = 6)
      ∧ (fun _ : List CutP => (0 : ℚ))
          (shakeResult (fun _ => 0) [((0, 0), (10, 5))] (List.replicate 18 (zeroCand 1)) [])
          ≤ 0 :=
  ⟨by intro c hc; simp only [List.mem_singleton] at hc; subst hc; refine ⟨?_, ?_, ?_, ?_⟩ <;> decide,
    rfl, by simp, by simp,
    shake_penalty_nonincreasing (fun _ => 0) [((0, 0), (10, 5))] 0
      (by intro c hc; simp only [List.mem_singleton] at hc; subst hc
          refine ⟨?_, ?_, ?_, ?_⟩ <;> decide)
      rfl (List.replicate 18 (zeroCand 1)) [] (by simp) (by simp)⟩

/-- `ptLe` is total. -/
theorem ptLe_total (a b : Pt) : ptLe a b ∨ ptLe b a := by
  unfold ptLe
  rcases lt_trichotomy a.1 b.1 with h | h | h
  · exact Or.inl (Or.inl h)
  · rcases le_total a.2 b.2 with h2 | h2
    · exact Or.inl (Or.inr ⟨h, h2⟩)
    · exact Or.inr (Or.inr ⟨h.symm, h2⟩)
  · exact Or.inr (Or.inl h)

/-- `ptLe` is antisymmetric. -/
theorem ptLe_antisymm {a b : Pt} (h1 : ptLe a b) (h2 : ptLe b a) : a = b := by
  obtain ⟨a1, a2⟩ := a
  obtain ⟨b1, b2⟩ := b
  rcases h1 with h1 | ⟨h1, h1'⟩ <;> rcases h2 with h2 | ⟨h2, h2'⟩ <;>
    simp only at * <;> first | (exfalso; linarith [h1, h2]) | (exact Prod.ext (by linarith) (le_antisymm h1' h2'))

/-- Swapping twice is the identity. -/
theorem swapCut_swapCut (c : CutP) : swapCut (swapCut c) = c := rfl

/-- The canonical orientation ignores the endpoint order. -/
theorem normPair_swapCut (c : CutP) : normPair (swapCut c) = normPair c := by
  obtain ⟨a, b⟩ := c
  show (if ptLe b a then ((b, a) : CutP) else (a, b)) = if ptLe a b then (a, b) else (b, a)
  by_cases h1 : ptLe a b <;> by_cases h2 : ptLe b a
  · rw [if_pos h1, if_pos h2, ptLe_antisymm h1 h2]
  · rw [if_neg h2, if_pos h1]
  · rw [if_pos h2, if_neg h1]
  · rcases ptLe_total a b with h | h
    · exact absurd h h1
    · exact absurd h h2

/-- Two cuts with the same canonical orientation are equal or swapped. -/
theorem normPair_eq_cases {c d : CutP} (h : normPair c = normPair d) :
    c = d ∨ c = swapCut d := by
  unfold normPair at h
  by_cases h1 : ptLe c.1 c.2 <;> by_cases h2 : ptLe d.1 d.2
  · rw [if_pos h1, if_pos h2] at h
    exact Or.inl h
  · rw [if_pos h1, if_neg h2] at h
    exact Or.inr h
  · rw [if_neg h1, if_pos h2] at h
    right
    rw [← h, swapCut_swapCut]
  · rw [if_neg h1, if_neg h2] at h
    left
    have h' := congrArg swapCut h
    rwa [swapCut_swapCut, swapCut_swapCut] at h' 

/-- A cut's canonical orientation occurs among the selected cuts' canonical
orientations exactly when the cut or its swap was selected - the duplicate
test of `generate_cuts` (lines 62-65). -/
theorem mem_map_normPair (sel : List CutP) (d : CutP) :
    normPair d ∈ sel.map normPair ↔ d ∈ sel ∨ swapCut d ∈ sel := by
  constructor
  · intro h
    obtain ⟨e, he, hne⟩ := List.mem_map.mp h
    rcases normPair_eq_cases hne with rfl | rfl
    · exact Or.inl he
    · exact Or.inr (by simpa [swapCut_swapCut] using he)
  · rintro (h | h)
    · exact List.mem_map.mpr ⟨d, h, rfl⟩
    · exact List.mem_map.mpr ⟨swapCut d, h, normPair_swapCut d⟩

/-- Invariant of `generate_cuts`'s rejection loop: every selected cut is a
possible draw, no two selected cuts agree up to endpoint order, and no more
than the requested number of cuts is selected. -/
def drawsInv (D : List CutP) (k : ℕ) (sel : List CutP) : Prop :=
  (∀ c ∈ sel, c ∈ D) ∧ (sel.map normPair).Nodup ∧ sel.length ≤ k

/-- One loop iteration preserves the invariant. -/
theorem addDraw_inv {D : List CutP} {k : ℕ} {sel : List CutP} {d : CutP}
    (hinv : drawsInv D k sel) (hd : d ∈ D) (hlt : sel.length < k) :
    drawsInv D k (addDraw sel d) := by
  obtain ⟨hmem, hnd, hle⟩ := hinv
  unfold addDraw
  split_ifs with hg
  · exact ⟨hmem, hnd, hle⟩
  · refine ⟨?_, ?_, ?_⟩
    · intro c hc
      rcases List.mem_cons.mp hc with rfl | hc
      · exact hd
      · exact hmem c hc
    · rw [List.map_cons, List.nodup_cons]
      exact ⟨fun hc => hg ((mem_map_normPair sel d).mp hc), hnd⟩
    · simpa using hlt

/-- One loop iteration never drops selected cuts. -/
theorem addDraw_length_ge (sel : List CutP) (d : CutP) :
    sel.length ≤ (addDraw sel d).length := by
  unfold addDraw
  split_ifs <;> simp

/-- The selection can never exceed the number of realizable distinct cuts. -/
theorem drawsInv_length_le {D : List CutP} {k : ℕ} {sel : List CutP}
    (hinv : drawsInv D k sel) : sel.length ≤ (D.map normPair).dedup.length := by
  obtain ⟨hmem, hnd, -⟩ := hinv
  have hsub : (sel.map normPair).toFinset ⊆ (D.map normPair).toFinset := by
    intro x hx
    rw [List.mem_toFinset] at hx ⊢
    obtain ⟨c, hc, rfl⟩ := List.mem_map.mp hx
    exact List.mem_map.mpr ⟨c, hmem c hc, rfl⟩
  calc sel.length = (sel.map normPair).length := by simp
    _ = (sel.map normPair).toFinset.card := (List.toFinset_card_of_nodup hnd).symm
    _ ≤ (D.map normPair).toFinset.card := Finset.card_le_card hsub
    _ = (D.map normPair).dedup.length := List.card_toFinset _

/-- While fewer distinct cuts are selected than the point set can realize,
some possible draw is still fresh (neither it nor its swap selected). -/
theorem exists_fresh_draw {D : List CutP} {k : ℕ} {sel : List CutP}
    (hinv : drawsInv D k sel)
    (hlt : sel.length < (D.map normPair).dedup.length) :
    ∃ d ∈ D, normPair d ∉ sel.map normPair := by
  by_contra hcon
  push_neg at hcon
  obtain ⟨hmem, hnd, -⟩ := hinv
  have hsub : (D.map normPair).toFinset ⊆ (sel.map normPair).toFinset := by
    intro x hx
    rw [List.mem_toFinset] at hx ⊢
    obtain ⟨d, hd, rfl⟩ := List.mem_map.mp hx
    exact hcon d hd
  have : (D.map normPair).dedup.length ≤ sel.length := by
    calc (D.map normPair).dedup.length = (D.map normPair).toFinset.card :=
          (List.card_toFinset _).symm
      _ ≤ (sel.map normPair).toFinset.card := Finset.card_le_card hsub
      _ ≤ (sel.map normPair).length := List.toFinset_card_le _
      _ = sel.length := by simp
  omega

/-- As long as the loop guard holds, a fair draw scheduled `Δ` steps ahead
forces the selection to grow within `Δ + 1` iterations, and any successful
run from the grown state extends to a successful run from the current one. -/
theorem genLoop_progress (k : ℕ) (oracle : ℕ → CutP) (D : List CutP)
    (hval : ∀ t, oracle t ∈ D) (d : CutP) :
    ∀ (Δ n : ℕ) (sel : List CutP), drawsInv D k sel → sel.length < k →
      normPair d ∉ sel.map normPair → oracle (n + Δ) = d →
      ∃ (s : ℕ) (sel' : List CutP), sel.length < sel'.length ∧ drawsInv D k sel'
        ∧ ∀ fuel out, genLoop k oracle fuel (n + s) sel' = some out →
            genLoop k oracle (fuel + s) n sel = some out := by
  intro Δ
  induction Δ with
  | zero =>
      intro n sel hinv hlt hfresh horacle
      rw [Nat.add_zero] at horacle
      have hnotin : ¬(oracle n ∈ sel ∨ swapCut (oracle n) ∈ sel) := by
        rw [horacle]
        exact fun hc => hfresh ((mem_map_normPair sel d).mpr hc)
      have hadd : addDraw sel (oracle n) = oracle n :: sel := by
        rw [addDraw, if_neg hnotin]
      refine ⟨1, oracle n :: sel, by simp, ?_, ?_⟩
      · rw [← hadd]
        exact addDraw_inv hinv (hval n) hlt
      · intro fuel out hrun
        show genLoop k oracle (fuel + 1) n sel = some out
        rw [genLoop, if_neg (by omega), hadd]
        exact hrun
  | succ Δ ih =>
      intro n sel hinv hlt hfresh horacle
      by_cases hg : oracle n ∈ sel ∨ swapCut (oracle n) ∈ sel
      · have hadd : addDraw sel (oracle n) = sel := by rw [addDraw, if_pos hg]
        have horacle' : oracle (n + 1 + Δ) = d := by
          rw [show n + 1 + Δ = n + (Δ + 1) by omega]
          exact horacle
        obtain ⟨s, sel', hlen, hinv', htrans⟩ := ih (n + 1) sel hinv hlt hfresh horacle'
        refine ⟨s + 1, sel', hlen, hinv', ?_⟩
        intro fuel out hrun
        show genLoop k oracle (fuel + (s + 1)) n sel = some out
        rw [show fuel + (s + 1) = (fuel + s) + 1 by omega, genLoop, if_neg (by omega), hadd]
        exact htrans fuel out (by rw [show n + 1 + s = n + (s + 1) by omega]; exact hrun)
      · have hadd : addDraw sel (oracle n) = oracle n :: sel := by rw [addDraw, if_neg hg]
        refine ⟨1, oracle n :: sel, by simp, ?_, ?_⟩
        · rw [← hadd]
          exact addDraw_inv hinv (hval n) hlt
        · intro fuel out hrun
          show genLoop k oracle (fuel + 1) n sel = some out
          rw [genLoop, if_neg (by omega), hadd]
          exact hrun

/-- With a fair oracle and a feasible requested cut count, the rejection loop
reaches `k` selected cuts from any invariant state. -/
theorem genLoop_reaches (k : ℕ) (oracle : ℕ → CutP) (D : List CutP)
    (hval : ∀ t, oracle t ∈ D)
    (hfair : ∀ d ∈ D, ∀ n, ∃ m, n ≤ m ∧ oracle m = d)
    (hmax : k ≤ (D.map normPair).dedup.length) :
    ∀ (j n : ℕ) (sel : List CutP), drawsInv D k sel → k ≤ sel.length + j →
      ∃ fuel out, genLoop k oracle fuel n sel = some out
        ∧ out.length = k ∧ drawsInv D k out := by
  intro j
  induction j with
  | zero =>
      intro n sel hinv hle
      refine ⟨0, sel, ?_, ?_, hinv⟩
      · rw [genLoop, if_pos (by omega)]
      · have := hinv.2.2
        omega
  | succ j ih =>
      intro n sel hinv hle
      by_cases hk : k ≤ sel.length
      · refine ⟨0, sel, ?_, ?_, hinv⟩
        · rw [genLoop, if_pos hk]
        · have := hinv.2.2
          omega
      · push_neg at hk
        obtain ⟨d, hd, hfresh⟩ :=
          exists_fresh_draw hinv (lt_of_lt_of_le hk hmax)
        obtain ⟨m, hm, horacle⟩ := hfair d hd n
        obtain ⟨s, sel', hlen, hinv', htrans⟩ :=
          genLoop_progress k oracle D hval d (m - n) n sel hinv hk hfresh
            (by rw [show n + (m - n) = m by omega]; exact horacle)
        obtain ⟨fuel, out, hrun, hout, hinvout⟩ := ih (n + s) sel' hinv' (by omega)
        exact ⟨fuel + s, out, htrans fuel out hrun, hout, hinvout⟩

/-- When the requested cut count exceeds the number of realizable distinct
cuts, the loop guard can never be satisfied: the run returns `none` for every
fuel bound. -/
theorem genLoop_stalls (k : ℕ) (oracle : ℕ → CutP) (D : List CutP)
    (hval : ∀ t, oracle t ∈ D)
    (hmax : (D.map normPair).dedup.length < k) :
    ∀ (fuel n : ℕ) (sel : List CutP), drawsInv D k sel →
      genLoop k oracle fuel n sel = none := by
  intro fuel
  induction fuel with
  | zero =>
      intro n sel hinv
      rw [genLoop, if_neg (by have := drawsInv_length_le hinv; omega)]
  | succ fuel ih =>
      intro n sel hinv
      have hlt : sel.length < k := by have := drawsInv_length_le hinv; omega
      rw [genLoop, if_neg (by omega)]
      exact ih (n + 1) (addDraw sel (oracle n)) (addDraw_inv hinv (hval n) hlt)

/-- Every cut a successful run returns was a possible draw. -/
theorem genLoop_mem_draws (k : ℕ) (oracle : ℕ → CutP) (D : List CutP)
    (hval : ∀ t, oracle t ∈ D) :
    ∀ (fuel n : ℕ) (sel : List CutP), (∀ c ∈ sel, c ∈ D) →
      ∀ out, genLoop k oracle fuel n sel = some out → ∀ c ∈ out, c ∈ D := by
  intro fuel
  induction fuel with
  | zero =>
      intro n sel hsel out hrun
      rw [genLoop] at hrun
      split_ifs at hrun with h
      · cases hrun
        exact hsel
  | succ fuel ih =>
      intro n sel hsel out hrun
      rw [genLoop] at hrun
      split_ifs at hrun with h
      · cases hrun
        exact hsel
      · refine ih (n + 1) (addDraw sel (oracle n)) ?_ out hrun
        intro c hc
        rw [addDraw] at hc
        split_ifs at hc with hg
        · exact hsel c hc
        · rcases List.mem_cons.mp hc with rfl | hc
          · exact hval n
          · exact hsel c hc

/-- The empty selection satisfies the loop invariant. -/
theorem drawsInv_nil (D : List CutP) (k : ℕ) : drawsInv D k [] :=
  ⟨fun c hc => absurd hc (List.not_mem_nil c), by simp, by simp⟩

/-- C9: for a valid and fair sampling oracle (every possible draw occurs
arbitrarily late, as uniform sampling guarantees with probability one), the
rejection loop of `generate_cuts` terminates exactly when the requested cut
count `k` does not exceed the number of realizable distinct cross-edge cuts:
below the bound some fuel suffices and the run returns exactly `k` cuts that
are pairwise distinct under endpoint-order-independent comparison; above the
bound the run returns `none` for every fuel, i.e. the loop never exits. -/
theorem generate_cuts_termination (cake_len cake_width : ℚ) (jumps k : ℕ)
    (oracle : ℕ → CutP)
    (hval : ∀ t, oracle t ∈ allDraws cake_len cake_width jumps)
    (hfair : ∀ d ∈ allDraws cake_len cake_width jumps, ∀ n, ∃ m, n ≤ m ∧ oracle m = d) :
    (k ≤ maxDistinct cake_len cake_width jumps →
      ∃ fuel out, generateCutsRun cake_len cake_width jumps k oracle fuel = some out
        ∧ out.length = k ∧ (out.map normPair).Nodup)
    ∧ (maxDistinct cake_len cake_width jumps < k →
      ∀ fuel, generateCutsRun cake_len cake_width jumps k oracle fuel = none) := by
  constructor
  · intro hk
    obtain ⟨fuel, out, hrun, hlen, hinv⟩ :=
      genLoop_reaches k oracle (allDraws cake_len cake_width jumps) hval hfair hk
        k 0 [] (drawsInv_nil _ k) (by simp)
    exact ⟨fuel, out, hrun, hlen, hinv.2.1⟩
  · intro hk fuel
    exact genLoop_stalls k oracle (allDraws cake_len cake_width jumps) hval hk
      fuel 0 [] (drawsInv_nil _ k)

/-- Witness for `generate_cuts_termination`: a 10 by 10 cake at granularity 2
(point set: the four corners, eight possible draws, four distinct cuts) with
the oracle cycling through all eight draws, asking for one cut. -/
theorem generate_cuts_termination_witness :
    (∀ t, (allDraws 10 10 2).getD (t % 8) ((0, 0), (0, 0)) ∈ allDraws 10 10 2)
      ∧ (∀ d ∈ allDraws 10 10 2, ∀ n, ∃ m, n ≤ m
          ∧ (allDraws 10 10 2).getD (m % 8) ((0, 0), (0, 0)) = d)
      ∧ ((1 ≤ maxDistinct 10 10 2 →
            ∃ fuel out, generateCutsRun 10 10 2 1
                (fun t => (allDraws 10 10 2).getD (t % 8) ((0, 0), (0, 0))) fuel = some out
              ∧ out.length = 1 ∧ (out.map normPair).Nodup)
          ∧ (maxDistinct 10 10 2 < 1 →
            ∀ fuel, generateCutsRun 10 10 2 1
                (fun t => (allDraws 10 10 2).getD (t % 8) ((0, 0), (0, 0))) fuel = none)) := by
  have hlen8 : (allDraws 10 10 2).length = 8 := by decide
  have hval : ∀ t, (allDraws 10 10 2).getD (t % 8) ((0, 0), (0, 0)) ∈ allDraws 10 10 2 := by
    intro t
    have ht : t % 8 < (allDraws 10 10 2).length := by
      rw [hlen8]
      omega
    rw [List.getD_eq_getElem _ _ ht]
    exact List.getElem_mem ht
  have hfair : ∀ d ∈ allDraws 10 10 2, ∀ n, ∃ m, n ≤ m
      ∧ (allDraws 10 10 2).getD (m % 8) ((0, 0), (0, 0)) = d := by
    intro d hd n
    obtain ⟨i, hi, hdi⟩ := List.mem_iff_getElem.mp hd
    refine ⟨i + 8 * n, by omega, ?_⟩
    have him : (i + 8 * n) % 8 = i := by
      rw [hlen8] at hi
      omega
    rw [him, List.getD_eq_getElem _ _ hi]
    exact hdi
  exact ⟨hval, hfair,
    generate_cuts_termination 10 10 2 1
      (fun t => (allDraws 10 10 2).getD (t % 8) ((0, 0), (0, 0))) hval hfair⟩

/-- Every LEFT point has `x = 0`. -/
theorem mem_leftPts_x {cake_len cake_width : ℚ} {jumps : ℕ} {p : Pt}
    (h : p ∈ leftPts cake_len cake_width jumps) : p.1 = 0 := by
  obtain ⟨i, -, rfl⟩ := List.mem_map.mp h
  rfl

/-- Every RIGHT point has `x = cake_width`. -/
theorem mem_rightPts_x {cake_len cake_width : ℚ} {jumps : ℕ} {p : Pt}
    (h : p ∈ rightPts cake_len cake_width jumps) : p.1 = cake_width := by
  obtain ⟨i, -, rfl⟩ := List.mem_map.mp h
  rfl

/-- Every UP point has `y = 0`. -/
theorem mem_upPts_y {cake_len cake_width : ℚ} {jumps : ℕ} {p : Pt}
    (h : p ∈ upPts cake_len cake_width jumps) : p.2 = 0 := by
  obtain ⟨i, -, rfl⟩ := List.mem_map.mp h
  rfl

/-- Every DOWN point has `y = cake_len`. -/
theorem mem_downPts_y {cake_len cake_width : ℚ} {jumps : ℕ} {p : Pt}
    (h : p ∈ downPts cake_len cake_width jumps) : p.2 = cake_len := by
  obtain ⟨i, -, rfl⟩ := List.mem_map.mp h
  rfl

/-- A sampled point comes from one of the four edge lists. -/
theorem mem_samplePts_cases {cake_len cake_width : ℚ} {jumps : ℕ} {p : Pt}
    (h : p ∈ samplePts cake_len cake_width jumps) :
    p ∈ leftPts cake_len cake_width jumps ∨ p ∈ rightPts cake_len cake_width jumps
      ∨ p ∈ upPts cake_len cake_width jumps ∨ p ∈ downPts cake_len cake_width jumps := by
  rw [samplePts, List.mem_dedup] at h
  simpa using h

/-- A sampled non-corner point with `x = 0` is in the LEFT list. -/
theorem samplePts_x_zero {cake_len cake_width : ℚ} {jumps : ℕ} {p : Pt}
    (hp : p ∈ samplePts cake_len cake_width jumps) (hw : 0 < cake_width)
    (hx : p.1 = 0) (hnc : ¬ isCorner cake_len cake_width p) :
    p ∈ leftPts cake_len cake_width jumps := by
  rcases mem_samplePts_cases hp with h | h | h | h
  · exact h
  · exact absurd ((mem_rightPts_x h) ▸ hx) (by intro hc; rw [← hc] at hw; exact lt_irrefl _ hw)
  · exact absurd ⟨Or.inl hx, Or.inl (mem_upPts_y h)⟩ hnc
  · exact absurd ⟨Or.inl hx, Or.inr (mem_downPts_y h)⟩ hnc

/-- A sampled non-corner point with `x = cake_width` is in the RIGHT list. -/
theorem samplePts_x_width {cake_len cake_width : ℚ} {jumps : ℕ} {p : Pt}
    (hp : p ∈ samplePts cake_len cake_width jumps) (hw : 0 < cake_width)
    (hx : p.1 = cake_width) (hnc : ¬ isCorner cake_len cake_width p) :
    p ∈ rightPts cake_len cake_width jumps := by
  rcases mem_samplePts_cases hp with h | h | h | h
  · have := mem_leftPts_x h
    rw [this] at hx
    exact absurd hx.symm (by intro hc; rw [← hc] at hw; exact lt_irrefl _ hw)
  · exact h
  · exact absurd ⟨Or.inr hx, Or.inl (mem_upPts_y h)⟩ hnc
  · exact absurd ⟨Or.inr hx, Or.inr (mem_downPts_y h)⟩ hnc

/-- A sampled non-corner point with `y = 0` is in the UP list. -/
theorem samplePts_y_zero {cake_len cake_width : ℚ} {jumps : ℕ} {p : Pt}
    (hp : p ∈ samplePts cake_len cake_width jumps) (hl : 0 < cake_len)
    (hy : p.2 = 0) (hnc : ¬ isCorner cake_len cake_width p) :
    p ∈ upPts cake_len cake_width jumps := by
  rcases mem_samplePts_cases hp with h | h | h | h
  · exact absurd ⟨Or.inl (mem_leftPts_x h), Or.inl hy⟩ hnc
  · exact absurd ⟨Or.inr (mem_rightPts_x h), Or.inl hy⟩ hnc
  · exact h
  · have := mem_downPts_y h
    rw [this] at hy
    exact absurd hy (by intro hc; rw [hc] at hl; exact lt_irrefl 0 hl)

/-- A sampled non-corner point with `y = cake_len` is in the DOWN list. -/
theorem samplePts_y_len {cake_len cake_width : ℚ} {jumps : ℕ} {p : Pt}
    (hp : p ∈ samplePts cake_len cake_width jumps) (hl : 0 < cake_len)
    (hy : p.2 = cake_len) (hnc : ¬ isCorner cake_len cake_width p) :
    p ∈ downPts cake_len cake_width jumps := by
  rcases mem_samplePts_cases hp with h | h | h | h
  · exact absurd ⟨Or.inl (mem_leftPts_x h), Or.inr hy⟩ hnc
  · exact absurd ⟨Or.inr (mem_rightPts_x h), Or.inr hy⟩ hnc
  · have := mem_upPts_y h
    rw [this] at hy
    exact absurd hy.symm (by intro hc; rw [hc] at hl; exact lt_irrefl 0 hl)
  · exact h

/-- A possible draw decomposes into a "from" point and one of its
candidates. -/
theorem allDraws_mem {cake_len cake_width : ℚ} {jumps : ℕ} {d : CutP}
    (hd : d ∈ allDraws cake_len cake_width jumps) :
    d.1 ∈ samplePts cake_len cake_width jumps
      ∧ d.2 ∈ toCandidates cake_len cake_width jumps d.1 := by
  rw [allDraws, List.mem_bind] at hd
  obtain ⟨f, hf, hd⟩ := hd
  obtain ⟨t, ht, rfl⟩ := List.mem_map.mp hd
  exact ⟨hf, ht⟩

/-- No possible draw joins two non-corner points of the same domain edge: the
edge-exclusion filter of `generate_cuts` rules it out. -/
theorem draw_not_noncorner_same_edge (cake_len cake_width : ℚ) (jumps : ℕ)
    (hl : 0 < cake_len) (hw : 0 < cake_width) {f t : Pt}
    (hf : f ∈ samplePts cake_len cake_width jumps)
    (ht : t ∈ toCandidates cake_len cake_width jumps f)
    (hncf : ¬ isCorner cake_len cake_width f)
    (hnct : ¬ isCorner cake_len cake_width t) :
    ¬ sameEdge cake_len cake_width (f, t) := by
  intro hsame
  simp only [sameEdge] at hsame
  rcases hsame with ⟨h1, h2⟩ | ⟨h1, h2⟩ | ⟨h1, h2⟩ | ⟨h1, h2⟩
  · -- both on the left edge
    have hfL := samplePts_x_zero hf hw h1 hncf
    rw [toCandidates, if_pos hfL] at ht
    obtain ⟨htp, htn⟩ := List.mem_filter.mp ht
    exact (of_decide_eq_true htn) (samplePts_x_zero htp hw h2 hnct)
  · -- both on the right edge
    have hfR := samplePts_x_width hf hw h1 hncf
    have hfnL : f ∉ leftPts cake_len cake_width jumps := by
      intro hc
      rw [mem_leftPts_x hc] at h1
      rw [← h1] at hw
      exact lt_irrefl 0 hw
    rw [toCandidates, if_neg hfnL, if_pos hfR] at ht
    obtain ⟨htp, htn⟩ := List.mem_filter.mp ht
    exact (of_decide_eq_true htn) (samplePts_x_width htp hw h2 hnct)
  · -- both on the top edge
    have hfU := samplePts_y_zero hf hl h1 hncf
    have hfnL : f ∉ leftPts cake_len cake_width jumps :=
      fun hc => hncf ⟨Or.inl (mem_leftPts_x hc), Or.inl h1⟩
    have hfnR : f ∉ rightPts cake_len cake_width jumps :=
      fun hc => hncf ⟨Or.inr (mem_rightPts_x hc), Or.inl h1⟩
    rw [toCandidates, if_neg hfnL, if_neg hfnR, if_pos hfU] at ht
    obtain ⟨htp, htn⟩ := List.mem_filter.mp ht
    exact (of_decide_eq_true htn) (samplePts_y_zero htp hl h2 hnct)
  · -- both on the bottom edge
    have hfnL : f ∉ leftPts cake_len cake_width jumps :=
      fun hc => hncf ⟨Or.inl (mem_leftPts_x hc), Or.inr h1⟩
    have hfnR : f ∉ rightPts cake_len cake_width jumps :=
      fun hc => hncf ⟨Or.inr (mem_rightPts_x hc), Or.inr h1⟩
    have hfnU : f ∉ upPts cake_len cake_width jumps := by
      intro hc
      rw [mem_upPts_y hc] at h1
      rw [← h1] at hl
      exact lt_irrefl 0 hl
    rw [toCandidates, if_neg hfnL, if_neg hfnR, if_neg hfnU] at ht
    obtain ⟨htp, htn⟩ := List.mem_filter.mp ht
    exact (of_decide_eq_true htn) (samplePts_y_len htp hl h2 hnct)

/-- C2 (amended): for every cut returned by a run of `generate_cuts` (any cut
count, positive domain extents, granularity at least 2, valid oracle), the
two endpoints never lie on the same domain edge with both of them non-corner
points; in particular a cut such as `(0,25)-(0,75)` with both endpoints
strictly inside the left edge never appears.  (A cut incident to a corner may
still run along an edge, as the counterexample shows.) -/
theorem generate_cuts_no_noncorner_same_edge (cake_len cake_width : ℚ)
    (jumps k : ℕ) (hl : 0 < cake_len) (hw : 0 < cake_width) (hj : 2 ≤ jumps)
    (oracle : ℕ → CutP)
    (hval : ∀ t, oracle t ∈ allDraws cake_len cake_width jumps)
    (fuel : ℕ) (out : List CutP)
    (hrun : generateCutsRun cake_len cake_width jumps k oracle fuel = some out) :
    ∀ c ∈ out, ¬ (sameEdge cake_len cake_width c
      ∧ ¬ isCorner cake_len cake_width c.1 ∧ ¬ isCorner cake_len cake_width c.2) := by
  rintro c hc ⟨hsame, hnc1, hnc2⟩
  have hcD : c ∈ allDraws cake_len cake_width jumps :=
    genLoop_mem_draws k oracle (allDraws cake_len cake_width jumps) hval fuel 0 []
      (fun c hc => absurd hc (List.not_mem_nil c)) out hrun c hc
  obtain ⟨hf, ht⟩ := allDraws_mem hcD
  exact draw_not_noncorner_same_edge cake_len cake_width jumps hl hw hf ht hnc1 hnc2
    (by obtain ⟨cf, ct⟩ := c; exact hsame)

/-- Witness for `generate_cuts_no_noncorner_same_edge` at the
counterexample's run: the returned corner-to-corner cut is allowed by the
amended statement because `(0,0)` and `(10,0)` are corners. -/
theorem generate_cuts_no_noncorner_same_edge_witness :
    (0 : ℚ) < 10 ∧ 2 ≤ 2
      ∧ (∀ t : ℕ, (fun _ : ℕ => (((0, 0), (10, 0)) : CutP)) t ∈ allDraws 10 10 2)
      ∧ generateCutsRun 10 10 2 1 (fun _ => (((0 : ℚ), (0 : ℚ)), ((10 : ℚ), (0 : ℚ)))) 1
          = some [((0, 0), (10, 0))]
      ∧ ∀ c ∈ [(((0, 0), (10, 0)) : CutP)],
          ¬ (sameEdge 10 10 c ∧ ¬ isCorner 10 10 c.1 ∧ ¬ isCorner 10 10 c.2) :=
  ⟨by norm_num, by norm_num,
    by intro t; show (((0, 0), (10, 0)) : CutP) ∈ allDraws 10 10 2; decide,
    by decide,
    generate_cuts_no_noncorner_same_edge 10 10 2 1 (by norm_num) (by norm_num)
      (by norm_num) (fun _ => (((0 : ℚ), (0 : ℚ)), ((10 : ℚ), (0 : ℚ))))
      (by intro t; show (((0, 0), (10, 0)) : CutP) ∈ allDraws 10 10 2; decide)
      1 [((0, 0), (10, 0))] (by decide)⟩
